import Mathlib

/-!
Shallow embedding of the browser-finder core of this repository
(Source/darwinFinderBase.ts and the Darwin Firefox finder built on it).

Strings are modelled as `List Char` in the matching machinery and as
`String` at the API surface.  JavaScript regular expressions are only ever
built by the code from three kinds of pieces: escaped literal text, the
wildcard dot, and the wildcard-star `.*`; the `RItem` type captures exactly
this fragment, and `rtest` gives it the standard existential match
semantics (which agrees with the backtracking result of `RegExp.test`).
-/

namespace LandBrowsers

/-- The release-channel enumeration from index.ts (not under src; members
per the specification: Stable, Dev, Canary, Custom, Unknown). -/
inductive Quality where
  | Stable
  | Dev
  | Canary
  | Custom
  | Unknown
deriving DecidableEq, Repr

/-- One atom of the regular-expression fragment the code builds:
an (escaped) literal character, the wildcard `.` or the wildcard `.*`. -/
inductive RItem where
  | lit (c : Char)
  | dot
  | dotStar
deriving DecidableEq, Repr

/-- A compiled pattern: whether it is anchored at the start with a caret,
and its sequence of atoms. -/
structure RPattern where
  anchored : Bool
  items : List RItem
deriving DecidableEq, Repr

/-- Does the item sequence match some prefix of the character list?
(JavaScript patterns here carry no end anchor, so a successful match never
has to consume the whole subject.) -/
def itemsMatchPrefix : List RItem → List Char → Bool
  | [], _ => true
  | RItem.lit c :: is, s =>
    match s with
    | [] => false
    | d :: ds => c == d && itemsMatchPrefix is ds
  | RItem.dot :: is, s =>
    match s with
    | [] => false
    | _ :: ds => itemsMatchPrefix is ds
  | RItem.dotStar :: is, s =>
    (List.range (s.length + 1)).any fun k => itemsMatchPrefix is (s.drop k)

/-- Does the item sequence match starting at SOME position of the subject? -/
def containsMatch (is : List RItem) (s : List Char) : Bool :=
  (List.range (s.length + 1)).any fun k => itemsMatchPrefix is (s.drop k)

/-- `RegExp.test`: an anchored pattern must match at the start of the
subject; an unanchored one may match at any position. -/
def rtest (p : RPattern) (s : List Char) : Bool :=
  if p.anchored then itemsMatchPrefix p.items s
  else containsMatch p.items s

/-- The literal text of a string, as pattern atoms. -/
def litStr (s : String) : List RItem := s.toList.map RItem.lit

/-- Modelled from the spec: `escapeRegexSpecialChars` lives in util.ts,
which is not under src.  Per the specification it escapes every
matcher-special character, so the escaped text compiles to a pattern in
which every character stands only for itself. -/
def escapeRegexSpecialChars (s : List Char) : List RItem :=
  s.map RItem.lit

/-- A priority rule, as in util.ts `IPriority`: a pattern, a weight and a
quality. -/
structure IPriority where
  regex : RPattern
  weight : Int
  quality : Quality
deriving DecidableEq, Repr

/-- One variant entry passed to `createPriorities`:
`{ name; weight; quality }`.  The name is interpolated raw into the
pattern source, so it is carried here already in compiled-atom form. -/
structure VariantSpec where
  name : List RItem
  weight : Int
  quality : Quality
deriving DecidableEq, Repr

/-- The characters that `${home}` contributes to the pattern source in
`createPriorities`: `env.HOME && escapeRegexSpecialChars(env.HOME)` is
`undefined` when HOME is unset (interpolating as the literal text
`undefined`), the empty string when HOME is empty, and the escaped HOME
otherwise. -/
def homeChars (home? : Option String) : List Char :=
  match home? with
  | none => "undefined".toList
  | some h => if h = "" then [] else h.toList

/-- The system-Applications rule for a variant:
`^/Applications/.*<name>` with weight `weight + 100`. -/
def sysRule (v : VariantSpec) : IPriority :=
  ⟨⟨true, litStr "/Applications/" ++ ([RItem.dotStar] ++ v.name)⟩, v.weight + 100, v.quality⟩

/-- The home-Applications rule for a variant:
`^${home}/Applications/.*<name>` with weight `weight`. -/
def homeRule (home? : Option String) (v : VariantSpec) : IPriority :=
  ⟨⟨true, (homeChars home?).map RItem.lit ++ (litStr "/Applications/" ++ ([RItem.dotStar] ++ v.name))⟩,
    v.weight, v.quality⟩

/-- The mounted-volume rule for a variant:
`^/Volumes/.*<name>` with weight `weight - 100`. -/
def volRule (v : VariantSpec) : IPriority :=
  ⟨⟨true, litStr "/Volumes/" ++ ([RItem.dotStar] ++ v.name)⟩, v.weight - 100, v.quality⟩

/-- JavaScript truthiness of a string-or-undefined value. -/
def strTruthy : Option String → Bool
  | none => false
  | some s => s ≠ ""

/-- The preferred-path override rule:
`new RegExp(escapeRegexSpecialChars(preferred))`, unanchored, with fixed
weight 151 and quality Custom. -/
def preferredRule (preferred : String) : IPriority :=
  ⟨⟨false, escapeRegexSpecialChars preferred.toList⟩, 151, Quality.Custom⟩

/-- `DarwinFinderBase.createPriorities`: three location rules per variant,
in variant order, preceded by the override rule when the preferred path is
truthy. -/
def createPriorities (home? preferred? : Option String)
    (priorities : List VariantSpec) : List IPriority :=
  let mapped := priorities.foldl
    (fun acc p => acc ++ [sysRule p, homeRule home? p, volRule p]) []
  match preferred? with
  | some pref => if pref ≠ "" then preferredRule pref :: mapped else mapped
  | none => mapped

/-- The first rule in the list whose pattern matches the path (the sort in
util.ts takes the first matching priority for a path). -/
def firstMatch (rules : List IPriority) (s : List Char) : Option IPriority :=
  rules.find? fun r => rtest r.regex s

/-- Lowercase hexadecimal digit, the character class of `pathSuffixRe`. -/
def isHexLower (c : Char) : Bool :=
  (decide ('a' ≤ c) && decide (c ≤ 'f')) || (decide ('0' ≤ c) && decide (c ≤ '9'))

/-- If `pathSuffixRe` (text: a space, an opening parenthesis, `0x`, one or
more lowercase hexadecimal digits, a closing parenthesis) matches at the
head of the list, return what follows the match. -/
def dropMarkerAt (l : List Char) : Option (List Char) :=
  match l with
  | c1 :: c2 :: c3 :: c4 :: rest =>
    if c1 = ' ' ∧ c2 = '(' ∧ c3 = '0' ∧ c4 = 'x' then
      match rest.dropWhile isHexLower with
      | d :: tail =>
        if d = ')' ∧ rest.takeWhile isHexLower ≠ [] then some tail else none
      | [] => none
    else none
  | _ => none

/-- `String.prototype.replace(pathSuffixRe, "")`: remove the leftmost
match of the marker, if any. -/
def stripFirstMarker : List Char → List Char
  | [] => []
  | c :: cs =>
    match dropMarkerAt (c :: cs) with
    | some tail => tail
    | none => c :: stripFirstMarker cs

/-- The whitespace class used by `String.prototype.trim` (restricted to
the common characters; exotic Unicode blanks do not occur in the claims). -/
def isWS (c : Char) : Bool :=
  c == ' ' || c == '\t' || c == '\n' || c == '\r'

/-- `String.prototype.trim` on character lists. -/
def jsTrim (s : List Char) : List Char :=
  ((s.dropWhile isWS).reverse.dropWhile isWS).reverse

/-- The per-line normalisation of the registry output in
`findLaunchRegisteredApps`: `l.trim().replace(pathSuffixRe, "")`. -/
def processLineL (l : List Char) : List Char :=
  stripFirstMarker (jsTrim l)

/-- `processLineL` on strings. -/
def processLine (l : String) : String :=
  ⟨processLineL l.toList⟩

/-- Collapse runs of slashes to a single slash. -/
def collapseSlashes : List Char → List Char
  | [] => []
  | [c] => [c]
  | c :: d :: rest =>
    if c == '/' && d == '/' then collapseSlashes (d :: rest)
    else c :: collapseSlashes (d :: rest)

/-- Model of the Node collaborator `posix.join` on the two-argument calls
the code makes: concatenate with a separator and collapse duplicate
slashes (dot-segment normalisation is never exercised by the candidates
this code builds). -/
def posixJoin (a b : String) : String :=
  ⟨collapseSlashes (a.toList ++ '/' :: b.toList)⟩

/-- Failure of the external command collaborator (execa): non-zero exit,
missing binary or I/O error, carried as an opaque message. -/
structure CmdError where
  msg : String
deriving DecidableEq, Repr

/-- `String.prototype.split("\n")` on character lists: the segments
between newline characters, keeping empty segments. -/
def splitNL : List Char → List (List Char)
  | [] => [[]]
  | c :: cs =>
    match splitNL cs with
    | [] => [[c]]
    | r :: rs => if c = '\n' then [] :: r :: rs else (c :: r) :: rs

/-- Insertion-ordered insertion into a deduplicating set, matching the
iteration order of a JavaScript `Set`. -/
def dedupInsert (x : String) (xs : List String) : List String :=
  if x ∈ xs then xs else xs ++ [x]

/-- `DarwinFinderBase.findLaunchRegisteredApps`.  The single external
command invocation is represented by its outcome `cmdResult` (the standard
output text, or the failure); the filesystem accessibility collaborator by
the predicate `access`.  A command failure propagates (there is no
try/catch around the invocation); on success the stdout lines are trimmed,
marker-stripped, merged with the default paths and the truthy preferred
path, expanded by the suffixes and filtered by accessibility into an
insertion-ordered deduplicated set. -/
def findLaunchRegisteredApps (cmdResult : Except CmdError String)
    (preferred? : Option String) (defaultPaths : List String)
    (suffixes : List String) (access : String → Bool) :
    Except CmdError (List String) := do
  let stdout ← cmdResult
  let lines := (splitNL stdout.toList).map fun l => processLine ⟨l⟩
  let paths := (defaultPaths ++ lines).filter fun l => l ≠ ""
  let paths := match preferred? with
    | some pref => if pref ≠ "" then paths ++ [pref] else paths
    | none => paths
  pure <| paths.foldl (fun acc inst =>
    suffixes.foldl (fun acc suffix =>
      let execPath := posixJoin ⟨jsTrim inst.toList⟩ suffix
      if access execPath then dedupInsert execPath acc else acc) acc) []

/-- One discovered executable, as in index.ts `IExecutable`. -/
structure IExecutable where
  path : String
  quality : Quality
deriving DecidableEq, Repr

/-- Stable descending insertion: the new element goes before an existing
one only when its weight is strictly greater, so equal weights keep their
first-appearance order. -/
def insertByWeightDesc (x : IExecutable × Int) :
    List (IExecutable × Int) → List (IExecutable × Int)
  | [] => [x]
  | y :: ys => if x.2 > y.2 then x :: y :: ys else y :: insertByWeightDesc x ys

/-- Modelled from the spec: the `sort` function lives in util.ts, which is
not under src.  Per the specification it maps each candidate path to the
weight and quality of the first matching rule, drops candidates matching
no rule, and orders the rest by weight descending with a stable sort. -/
def sortExecs (installations : List String) (rules : List IPriority) :
    List IExecutable :=
  let ranked := installations.filterMap fun p =>
    (firstMatch rules p.toList).map fun r => ((⟨p, r.quality⟩ : IExecutable), r.weight)
  (ranked.foldl (fun acc x => insertByWeightDesc x acc) []).map Prod.fst

/-- The `findAllInner` composition of the concrete Darwin finders: run the
registry scan, then sort the surviving candidates under the priorities
built from the variant list, the HOME environment value and the preferred
path. -/
def findAllInner (cmdResult : Except CmdError String)
    (home? preferred? : Option String) (defaultPaths suffixes : List String)
    (variants : List VariantSpec) (access : String → Bool) :
    Except CmdError (List IExecutable) :=
  (findLaunchRegisteredApps cmdResult preferred? defaultPaths suffixes access).map
    fun insts => sortExecs insts (createPriorities home? preferred? variants)

/-- Decidable equality for settled `Except` values. -/
instance instDecEqExcept {ε α : Type} [DecidableEq ε] [DecidableEq α] :
    DecidableEq (Except ε α)
  | .error e, .error f => decidable_of_iff (e = f) (by simp)
  | .error _, .ok _ => isFalse (fun h => Except.noConfusion h)
  | .ok _, .error _ => isFalse (fun h => Except.noConfusion h)
  | .ok a, .ok b => decidable_of_iff (a = b) (by simp)

/-- The settled value of the scan promise: the ordered executables, or the
propagated command failure. -/
abbrev ScanOutcome := Except CmdError (List IExecutable)

/-- The mutable state of a `DarwinFinderBase` instance: the `foundAll`
field (undefined, or the memoized promise represented by its settled
outcome) together with a count of how many times `findAllInner` — and with
it the single external command invocation — has been started. -/
structure FinderState where
  foundAll : Option ScanOutcome
  scanCount : Nat
deriving DecidableEq, Repr

/-- A freshly constructed finder: no cached promise, no scan started. -/
def initState : FinderState := ⟨none, 0⟩

/-- `DarwinFinderBase.findAll`: `this.foundAll ??= this.findAllInner()`.
`inner k` is the outcome the k-th invocation of `findAllInner` would
settle to; the assignment happens only when the field is still undefined,
and the promise is cached whether it later fulfils or rejects. -/
def findAll (inner : Nat → ScanOutcome) (s : FinderState) :
    ScanOutcome × FinderState :=
  match s.foundAll with
  | some r => (r, s)
  | none => (inner s.scanCount, ⟨some (inner s.scanCount), s.scanCount + 1⟩)

/-- `n` successive calls of `findAll` on the same instance. -/
def findAllIter (inner : Nat → ScanOutcome) : Nat → FinderState → FinderState
  | 0, s => s
  | n + 1, s => findAllIter inner n (findAll inner s).2

/-- `DarwinFinderBase.findWhere`: walk the well-known paths in declaration
order and return the first that satisfies the predicate and is accessible,
without touching `findAll`; otherwise fall through to `findAll` and return
its first element satisfying the predicate. -/
def findWhere (wellKnown : List IExecutable) (access : String → Bool)
    (pred : IExecutable → Bool) (inner : Nat → ScanOutcome)
    (s : FinderState) : Except CmdError (Option IExecutable) × FinderState :=
  match wellKnown.find? (fun t => pred t && access t.path) with
  | some t => (.ok (some t), s)
  | none =>
    let r := findAll inner s
    (r.1.map fun l => l.find? pred, r.2)

/-! ### Matching lemmas -/

theorem itemsMatchPrefix_lit_append (P : List Char) (is : List RItem) (s : List Char) :
    itemsMatchPrefix (P.map RItem.lit ++ is) s =
      (P.isPrefixOf s && itemsMatchPrefix is (s.drop P.length)) := by
  induction P generalizing s with
  | nil => simp [List.isPrefixOf]
  | cons c P ih =>
    cases s with
    | nil => simp [itemsMatchPrefix, List.isPrefixOf]
    | cons d ds =>
      simp [itemsMatchPrefix, List.isPrefixOf, ih, Bool.and_assoc]

theorem itemsMatchPrefix_lit (P : List Char) (s : List Char) :
    itemsMatchPrefix (P.map RItem.lit) s = P.isPrefixOf s := by
  have h := itemsMatchPrefix_lit_append P [] s
  simpa [itemsMatchPrefix] using h

/-- An anchored pattern of the shape `^<literal text><dot-star><tail>`
matches exactly the subjects that start with the literal text and whose
remainder contains a match of the tail. -/
theorem rtest_anchored_lit_dotStar (P : List Char) (name : List RItem) (s : List Char) :
    rtest ⟨true, P.map RItem.lit ++ ([RItem.dotStar] ++ name)⟩ s =
      (P.isPrefixOf s && containsMatch name (s.drop P.length)) := by
  simp only [rtest, if_pos rfl, itemsMatchPrefix_lit_append]
  rfl

/-- An all-literal pattern matches somewhere in the subject exactly when
its text is an infix of the subject. -/
theorem containsMatch_lit_iff (P s : List Char) :
    containsMatch (P.map RItem.lit) s = true ↔ P <:+: s := by
  constructor
  · intro h
    simp only [containsMatch, List.any_eq_true, List.mem_range] at h
    obtain ⟨k, _, hpre⟩ := h
    rw [itemsMatchPrefix_lit] at hpre
    obtain ⟨t, ht⟩ := List.isPrefixOf_iff_prefix.mp hpre
    exact ⟨s.take k, t, by rw [List.append_assoc, ht, List.take_append_drop]⟩
  · rintro ⟨u, v, rfl⟩
    simp only [containsMatch, List.any_eq_true, List.mem_range]
    refine ⟨u.length, by simp; omega, ?_⟩
    rw [itemsMatchPrefix_lit]
    refine List.isPrefixOf_iff_prefix.mpr ⟨v, ?_⟩
    rw [List.append_assoc, List.drop_left]

/-! ### Memoization lemmas -/

theorem findAllIter_cached (inner : Nat → ScanOutcome) (n : Nat) (s : FinderState)
    (r : ScanOutcome) (h : s.foundAll = some r) : findAllIter inner n s = s := by
  induction n with
  | zero => rfl
  | succ n ih =>
    have hstep : (findAll inner s).2 = s := by simp [findAll, h]
    rw [findAllIter, hstep, ih]

theorem findAllIter_init (inner : Nat → ScanOutcome) (m : Nat) :
    findAllIter inner (m + 1) initState = ⟨some (inner 0), 1⟩ := by
  rw [findAllIter]
  have hstep : (findAll inner initState).2 = ⟨some (inner 0), 1⟩ := rfl
  rw [hstep]
  exact findAllIter_cached inner m _ (inner 0) rfl

/-- C1: for every Finder instance, the underlying full scan
(`findAllInner`, including its single external command invocation) is
executed at most once: after any positive number of `findAll` calls on a
fresh instance the scan has started exactly once, the cache holds the
outcome of that first scan, and every further call returns that same
memoized outcome without starting another scan. -/
theorem findAll_single_flight (inner : Nat → ScanOutcome) (n : Nat) (hn : 1 ≤ n) :
    (findAllIter inner n initState).scanCount = 1 ∧
    (findAllIter inner n initState).foundAll = some (inner 0) ∧
    findAll inner (findAllIter inner n initState) =
      (inner 0, findAllIter inner n initState) := by
  obtain ⟨m, rfl⟩ : ∃ m, n = m + 1 := ⟨n - 1, by omega⟩
  rw [findAllIter_init]
  exact ⟨rfl, rfl, rfl⟩

/-- Witness for C1 at a concrete scan outcome and three calls. -/
theorem findAll_single_flight_witness :
    (findAllIter (fun _ => Except.ok []) 3 initState).scanCount = 1 ∧
    (findAllIter (fun _ => Except.ok []) 3 initState).foundAll = some (Except.ok []) ∧
    findAll (fun _ => Except.ok []) (findAllIter (fun _ => Except.ok []) 3 initState) =
      (Except.ok [], findAllIter (fun _ => Except.ok []) 3 initState) :=
  findAll_single_flight (fun _ => Except.ok []) 3 (by decide)

/-- C4 counterexample: with a scan that fails on its first execution and
would succeed on a second one, the `findAll` call made after the failure
still returns the cached failure and starts no new scan — the claim that a
later call performs a fresh scan attempt is false on the code. -/
theorem findAll_after_failure_counterexample :
    (findAll (fun k => if k = 0 then Except.error ⟨"fail"⟩ else Except.ok [])
      ((findAll (fun k => if k = 0 then Except.error ⟨"fail"⟩ else Except.ok [])
        initState).2)).1 = Except.error ⟨"fail"⟩ ∧
    ((findAll (fun k => if k = 0 then Except.error ⟨"fail"⟩ else Except.ok [])
      ((findAll (fun k => if k = 0 then Except.error ⟨"fail"⟩ else Except.ok [])
        initState).2)).2).scanCount = 1 := by
  decide

/-- C4 amended: the rejected promise is cached exactly like a fulfilled
one.  When the first scan fails, every later `findAll` call returns the
same cached failure and the scan is never re-executed: the cache is
permanently poisoned by the failure. -/
theorem findAll_failure_poisons_cache (inner : Nat → ScanOutcome) (e : CmdError)
    (he : inner 0 = Except.error e) (n : Nat) (hn : 1 ≤ n) :
    (findAll inner (findAllIter inner n initState)).1 = Except.error e ∧
    (findAll inner (findAllIter inner n initState)).2.scanCount = 1 := by
  obtain ⟨m, rfl⟩ : ∃ m, n = m + 1 := ⟨n - 1, by omega⟩
  rw [findAllIter_init]
  exact ⟨he, rfl⟩

/-- Witness for the amended C4 at a concrete failing scan. -/
theorem findAll_failure_poisons_cache_witness :
    (findAll (fun k => if k = 0 then Except.error ⟨"boom"⟩ else Except.ok [])
      (findAllIter (fun k => if k = 0 then Except.error ⟨"boom"⟩ else Except.ok [])
        2 initState)).1 = Except.error ⟨"boom"⟩ ∧
    (findAll (fun k => if k = 0 then Except.error ⟨"boom"⟩ else Except.ok [])
      (findAllIter (fun k => if k = 0 then Except.error ⟨"boom"⟩ else Except.ok [])
        2 initState)).2.scanCount = 1 :=
  findAll_failure_poisons_cache
    (fun k => if k = 0 then Except.error ⟨"boom"⟩ else Except.ok [])
    ⟨"boom"⟩ (by decide) 2 (by decide)

/-- C7: a failure of the external registry-dump command propagates
unchanged through `findLaunchRegisteredApps` and `findAllInner` to the
`findAll` caller, and the scan never converts a command failure into a
successful result: whenever the scan returns a (possibly empty) list, the
command itself succeeded. -/
theorem command_failure_propagates (e : CmdError) (home? preferred? : Option String)
    (defaultPaths suffixes : List String) (variants : List VariantSpec)
    (access : String → Bool) (cmd : Except CmdError String) (l : List String)
    (hok : findLaunchRegisteredApps cmd preferred? defaultPaths suffixes access =
      Except.ok l) :
    findLaunchRegisteredApps (Except.error e) preferred? defaultPaths suffixes access =
      Except.error e ∧
    findAllInner (Except.error e) home? preferred? defaultPaths suffixes variants access =
      Except.error e ∧
    (findAll (fun _ => findAllInner (Except.error e) home? preferred? defaultPaths
      suffixes variants access) initState).1 = Except.error e ∧
    ∃ out, cmd = Except.ok out := by
  refine ⟨rfl, rfl, rfl, ?_⟩
  cases cmd with
  | ok out => exact ⟨out, rfl⟩
  | error e' =>
    exact absurd hok (by simp [findLaunchRegisteredApps, Except.bind])

/-- Witness for C7 at a concrete failure and a concrete successful scan. -/
theorem command_failure_propagates_witness :
    findLaunchRegisteredApps (Except.error ⟨"exit 1"⟩) none [] [] (fun _ => false) =
      Except.error ⟨"exit 1"⟩ ∧
    findAllInner (Except.error ⟨"exit 1"⟩) none none [] [] [] (fun _ => false) =
      Except.error ⟨"exit 1"⟩ ∧
    (findAll (fun _ => findAllInner (Except.error ⟨"exit 1"⟩) none none [] [] []
      (fun _ => false)) initState).1 = Except.error ⟨"exit 1"⟩ ∧
    ∃ out, (Except.ok "" : Except CmdError String) = Except.ok out :=
  command_failure_propagates ⟨"exit 1"⟩ none none [] [] [] (fun _ => false)
    (Except.ok "") [] (by decide)

/-- C9: `findWhere` walks the well-known paths in declaration order; if
some well-known path satisfies the predicate and passes the accessibility
check, the first such path is returned with the finder state untouched (in
particular `findAll` is never consulted, so no external command runs);
only when none qualifies does it call `findAll` and return the first
element of its result that satisfies the predicate. -/
theorem findWhere_fast_path (wellKnown : List IExecutable) (access : String → Bool)
    (pred : IExecutable → Bool) (inner : Nat → ScanOutcome) (s : FinderState)
    (t : IExecutable) :
    (wellKnown.find? (fun x => pred x && access x.path) = some t →
      findWhere wellKnown access pred inner s = (Except.ok (some t), s)) ∧
    (wellKnown.find? (fun x => pred x && access x.path) = none →
      findWhere wellKnown access pred inner s =
        ((findAll inner s).1.map fun l => l.find? pred, (findAll inner s).2)) := by
  constructor
  · intro h
    simp [findWhere, h]
  · intro h
    simp [findWhere, h]

/-- Witness for C9: an accessible well-known path satisfying the predicate
is returned with the state (and so the scan count) unchanged. -/
theorem findWhere_fast_path_witness :
    findWhere [⟨"/Applications/Firefox.app/Contents/MacOS/firefox", Quality.Stable⟩]
      (fun _ => true) (fun _ => true) (fun _ => Except.ok []) initState =
      (Except.ok (some ⟨"/Applications/Firefox.app/Contents/MacOS/firefox",
        Quality.Stable⟩), initState) :=
  (findWhere_fast_path
    [⟨"/Applications/Firefox.app/Contents/MacOS/firefox", Quality.Stable⟩]
    (fun _ => true) (fun _ => true) (fun _ => Except.ok []) initState
    ⟨"/Applications/Firefox.app/Contents/MacOS/firefox", Quality.Stable⟩).1
    (by decide)

/-! ### Rule-builder structure lemmas -/

theorem foldl_append_eq_flatMap {α β : Type} (f : α → List β) (vs : List α) (l0 : List β) :
    vs.foldl (fun acc p => acc ++ f p) l0 = l0 ++ vs.flatMap f := by
  induction vs generalizing l0 with
  | nil => simp
  | cons v vs ih => simp [List.foldl_cons, ih, List.flatMap_cons]

theorem createPriorities_eq (home? preferred? : Option String) (vs : List VariantSpec) :
    createPriorities home? preferred? vs =
      (if strTruthy preferred? then [preferredRule (preferred?.getD "")] else []) ++
        vs.flatMap fun p => [sysRule p, homeRule home? p, volRule p] := by
  unfold createPriorities
  rw [foldl_append_eq_flatMap]
  cases preferred? with
  | none => simp [strTruthy]
  | some pref =>
    by_cases h : pref = "" <;> simp [strTruthy, h]

theorem flatMap_rules_length (home? : Option String) (vs : List VariantSpec) :
    (vs.flatMap fun p => [sysRule p, homeRule home? p, volRule p]).length =
      3 * vs.length := by
  induction vs with
  | nil => rfl
  | cons v vs ih =>
    rw [List.flatMap_cons, List.length_append, ih]
    simp [List.length_cons]
    ring

theorem createPriorities_length (home? preferred? : Option String)
    (vs : List VariantSpec) :
    (createPriorities home? preferred? vs).length =
      (if strTruthy preferred? then 1 else 0) + 3 * vs.length := by
  rw [createPriorities_eq, List.length_append, flatMap_rules_length]
  by_cases h : strTruthy preferred? <;> simp [h]

/-- C2 counterexample: at a variant list containing a variant of weight
100, the prepended override rule has weight 151, which is not strictly
greater than `weight + 100 = 200`, so the override rule does not carry a
weight exceeding `weight + 100` for every supplied variant. -/
theorem preferred_weight_counterexample :
    (createPriorities none (some "/x") [⟨[], 100, Quality.Stable⟩]).head? =
      some (preferredRule "/x") ∧
    (preferredRule "/x").weight = 151 ∧
    ¬ ((preferredRule "/x").weight > 100 + 100) := by
  decide

/-- C2 amended: when a truthy preferred-path override is supplied,
`createPriorities` prepends exactly one rule ahead of all location-derived
rules, with quality Custom and the fixed weight 151; that weight strictly
exceeds `weight + 100` for every supplied variant whose weight is below 51
(which covers every variant list appearing in this repository, whose
weights are at most 2). -/
theorem preferred_rule_prepended (home? : Option String) (pref : String)
    (vs : List VariantSpec) (h : pref ≠ "") :
    createPriorities home? (some pref) vs =
      preferredRule pref :: createPriorities home? none vs ∧
    (preferredRule pref).quality = Quality.Custom ∧
    (preferredRule pref).weight = 151 ∧
    ∀ v ∈ vs, v.weight < 51 → (preferredRule pref).weight > v.weight + 100 := by
  refine ⟨?_, rfl, rfl, ?_⟩
  · rw [createPriorities_eq home? (some pref) vs, createPriorities_eq home? none vs]
    simp [strTruthy, h]
  · intro v _ hv
    show (151 : Int) > v.weight + 100
    omega

/-- Witness for the amended C2 at a concrete override and variant list. -/
theorem preferred_rule_prepended_witness :
    createPriorities none (some "/p") [⟨[], 0, Quality.Stable⟩] =
      preferredRule "/p" :: createPriorities none none [⟨[], 0, Quality.Stable⟩] ∧
    (preferredRule "/p").quality = Quality.Custom ∧
    (preferredRule "/p").weight > (0 : Int) + 100 :=
  ⟨(preferred_rule_prepended none "/p" [⟨[], 0, Quality.Stable⟩] (by decide)).1,
   (preferred_rule_prepended none "/p" [⟨[], 0, Quality.Stable⟩] (by decide)).2.1,
   (preferred_rule_prepended none "/p" [⟨[], 0, Quality.Stable⟩] (by decide)).2.2.2
     ⟨[], 0, Quality.Stable⟩ (by simp) (by decide)⟩

/-- C5 counterexample: with override path `/a`, the prepended override
rule also matches the distinct candidate path `/x/a`, because the rule
pattern is unanchored: matching is not equivalent to equality with the
override path. -/
theorem preferred_exact_match_counterexample :
    (createPriorities none (some "/a") []).head? = some (preferredRule "/a") ∧
    rtest (preferredRule "/a").regex "/x/a".toList = true ∧
    ("/x/a" : String) ≠ "/a" := by
  decide

/-- C5 amended: the prepended override rule matches a candidate path if
and only if the candidate contains the override path as a substring (the
pattern is the escaped override text without anchors). -/
theorem preferred_rule_match_iff (home? : Option String) (pref : String)
    (vs : List VariantSpec) (s : List Char) (h : pref ≠ "") :
    (createPriorities home? (some pref) vs).head? = some (preferredRule pref) ∧
    (rtest (preferredRule pref).regex s = true ↔ pref.toList <:+: s) := by
  constructor
  · rw [createPriorities_eq]
    simp [strTruthy, h]
  · simpa [rtest, preferredRule, escapeRegexSpecialChars] using
      containsMatch_lit_iff pref.toList s

/-- Witness for the amended C5 at a concrete override and subject. -/
theorem preferred_rule_match_iff_witness :
    (createPriorities none (some "/b") []).head? = some (preferredRule "/b") ∧
    (rtest (preferredRule "/b").regex "/y/b".toList = true ↔
      "/b".toList <:+: "/y/b".toList) :=
  preferred_rule_match_iff none "/b" [] "/y/b".toList (by decide)

/-- C6: both the home directory and the preferred path are escaped before
being embedded into a rule pattern, so their characters stand only for
themselves: a path matching the home-Applications rule really starts with
the home directory followed by `/Applications/`, and a path matching the
override rule really contains the override text.  Rule construction is a
total function (modelled on the spec text for `escapeRegexSpecialChars`,
which lives in util.ts outside src): it produces the full rule set for any
home or override string, special characters included, as the length
equation states. -/
theorem escaping_prevents_spurious_match (home? : Option String) (pref : String)
    (vs : List VariantSpec) (v : VariantSpec) (s : List Char) :
    (createPriorities home? (some pref) vs).length =
      (if strTruthy (some pref) then 1 else 0) + 3 * vs.length ∧
    (rtest (homeRule home? v).regex s = true →
      (homeChars home? ++ "/Applications/".toList).isPrefixOf s = true) ∧
    (rtest (preferredRule pref).regex s = true → pref.toList <:+: s) := by
  have hhomere : (homeRule home? v).regex =
      ⟨true, (homeChars home? ++ "/Applications/".toList).map RItem.lit ++
        ([RItem.dotStar] ++ v.name)⟩ := by
    simp [homeRule, litStr, List.map_append, List.append_assoc]
  refine ⟨createPriorities_length home? (some pref) vs, ?_, ?_⟩
  · intro hm
    rw [hhomere, rtest_anchored_lit_dotStar] at hm
    simp only [Bool.and_eq_true] at hm
    exact hm.1
  · intro hm
    have := containsMatch_lit_iff pref.toList s
    simp only [rtest, preferredRule, escapeRegexSpecialChars] at hm
    exact this.mp hm

/-- Witness for C6 with matcher-special characters in both the home
directory and the preferred path. -/
theorem escaping_prevents_spurious_match_witness :
    (homeChars (some "/Users/a(b)") ++ "/Applications/".toList).isPrefixOf
      "/Users/a(b)/Applications/x".toList = true ∧
    "/p.(x)".toList <:+: "/q/p.(x)".toList :=
  ⟨(escaping_prevents_spurious_match (some "/Users/a(b)") "/p.(x)" []
      ⟨[], 0, Quality.Stable⟩ "/Users/a(b)/Applications/x".toList).2.1 (by decide),
   (escaping_prevents_spurious_match (some "/Users/a(b)") "/p.(x)" []
      ⟨[], 0, Quality.Stable⟩ "/q/p.(x)".toList).2.2 (by decide)⟩

/-- C3: `createPriorities` generates exactly three location rules per
variant, in variant order, with weights `weight + 100` (system
Applications root), `weight` (home Applications root) and `weight - 100`
(mounted-volume root), all with the variant's quality; consequently, for a
single variant, identically-named candidates under the three roots are
assigned those three weights by first-match rule lookup, so the system
candidate outranks the home candidate, which outranks the volume
candidate.  (The side conditions say the three candidates really live
under three distinct roots: the home candidate is not itself under
`/Applications/`, and the volume candidate is not under the home
Applications root.) -/
theorem location_rules_precedence (home? : Option String) (vs : List VariantSpec)
    (v : VariantSpec) (rest : List Char)
    (hname : containsMatch v.name rest = true)
    (hH : "/Applications/".toList.isPrefixOf
      (homeChars home? ++ ("/Applications/".toList ++ rest)) = false)
    (hV : (homeChars home? ++ "/Applications/".toList).isPrefixOf
      ("/Volumes/".toList ++ rest) = false) :
    createPriorities home? none vs =
      (vs.flatMap fun p => [sysRule p, homeRule home? p, volRule p]) ∧
    ((sysRule v).weight = v.weight + 100 ∧ (homeRule home? v).weight = v.weight ∧
      (volRule v).weight = v.weight - 100) ∧
    ((sysRule v).quality = v.quality ∧ (homeRule home? v).quality = v.quality ∧
      (volRule v).quality = v.quality) ∧
    firstMatch (createPriorities home? none [v])
      ("/Applications/".toList ++ rest) = some (sysRule v) ∧
    firstMatch (createPriorities home? none [v])
      (homeChars home? ++ ("/Applications/".toList ++ rest)) = some (homeRule home? v) ∧
    firstMatch (createPriorities home? none [v])
      ("/Volumes/".toList ++ rest) = some (volRule v) ∧
    (sysRule v).weight > (homeRule home? v).weight ∧
    (homeRule home? v).weight > (volRule v).weight := by
  have hrules : createPriorities home? none [v] =
      [sysRule v, homeRule home? v, volRule v] := by
    rw [createPriorities_eq]; simp [strTruthy]
  have hsysre : (sysRule v).regex =
      ⟨true, "/Applications/".toList.map RItem.lit ++ ([RItem.dotStar] ++ v.name)⟩ := rfl
  have hhomere : (homeRule home? v).regex =
      ⟨true, (homeChars home? ++ "/Applications/".toList).map RItem.lit ++
        ([RItem.dotStar] ++ v.name)⟩ := by
    simp [homeRule, litStr, List.map_append, List.append_assoc]
  have hvolre : (volRule v).regex =
      ⟨true, "/Volumes/".toList.map RItem.lit ++ ([RItem.dotStar] ++ v.name)⟩ := rfl
  have hA_sys : rtest (sysRule v).regex ("/Applications/".toList ++ rest) = true := by
    rw [hsysre, rtest_anchored_lit_dotStar, List.drop_left]
    simp [hname, List.isPrefixOf_iff_prefix, List.prefix_append]
  have hH_sys : rtest (sysRule v).regex
      (homeChars home? ++ ("/Applications/".toList ++ rest)) = false := by
    rw [hsysre, rtest_anchored_lit_dotStar, hH, Bool.false_and]
  have hH_home : rtest (homeRule home? v).regex
      (homeChars home? ++ ("/Applications/".toList ++ rest)) = true := by
    rw [hhomere, rtest_anchored_lit_dotStar, ← List.append_assoc, List.drop_left]
    simp [hname, List.isPrefixOf_iff_prefix, List.prefix_append]
  have hV_sys : rtest (sysRule v).regex ("/Volumes/".toList ++ rest) = false := by
    rw [hsysre, rtest_anchored_lit_dotStar,
      show "/Applications/".toList.isPrefixOf ("/Volumes/".toList ++ rest) = false
        from rfl,
      Bool.false_and]
  have hV_home : rtest (homeRule home? v).regex ("/Volumes/".toList ++ rest) = false := by
    rw [hhomere, rtest_anchored_lit_dotStar, hV, Bool.false_and]
  have hV_vol : rtest (volRule v).regex ("/Volumes/".toList ++ rest) = true := by
    rw [hvolre, rtest_anchored_lit_dotStar, List.drop_left]
    simp [hname, List.isPrefixOf_iff_prefix, List.prefix_append]
  refine ⟨?_, ⟨rfl, rfl, rfl⟩, ⟨rfl, rfl, rfl⟩, ?_, ?_, ?_, ?_, ?_⟩
  · rw [createPriorities_eq]; simp [strTruthy]
  · rw [hrules, firstMatch]
    exact List.find?_cons_of_pos _ hA_sys
  · rw [hrules, firstMatch]
    rw [List.find?_cons_of_neg _ (fun hc => Bool.noConfusion (hH_sys ▸ hc))]
    exact List.find?_cons_of_pos _ hH_home
  · rw [hrules, firstMatch]
    rw [List.find?_cons_of_neg _ (fun hc => Bool.noConfusion (hV_sys ▸ hc)),
      List.find?_cons_of_neg _ (fun hc => Bool.noConfusion (hV_home ▸ hc))]
    exact List.find?_cons_of_pos _ hV_vol
  · show v.weight + 100 > v.weight
    omega
  · show v.weight > v.weight - 100
    omega

/-- Witness for C3 at a concrete home, variant and candidate tail. -/
theorem location_rules_precedence_witness :
    firstMatch (createPriorities (some "/Users/u") none
        [⟨[RItem.lit 'X'], 0, Quality.Stable⟩]) ("/Applications/".toList ++ "X".toList) =
      some (sysRule ⟨[RItem.lit 'X'], 0, Quality.Stable⟩) ∧
    firstMatch (createPriorities (some "/Users/u") none
        [⟨[RItem.lit 'X'], 0, Quality.Stable⟩])
        (homeChars (some "/Users/u") ++ ("/Applications/".toList ++ "X".toList)) =
      some (homeRule (some "/Users/u") ⟨[RItem.lit 'X'], 0, Quality.Stable⟩) ∧
    firstMatch (createPriorities (some "/Users/u") none
        [⟨[RItem.lit 'X'], 0, Quality.Stable⟩]) ("/Volumes/".toList ++ "X".toList) =
      some (volRule ⟨[RItem.lit 'X'], 0, Quality.Stable⟩) := by
  have h := location_rules_precedence (some "/Users/u")
    [⟨[RItem.lit 'X'], 0, Quality.Stable⟩] ⟨[RItem.lit 'X'], 0, Quality.Stable⟩
    "X".toList (by decide) (by decide) (by decide)
  exact ⟨h.2.2.2.1, h.2.2.2.2.1, h.2.2.2.2.2.1⟩

/-- C10: with HOME unset, `createPriorities` is total and still returns
the optional override rule followed by exactly three location rules per
variant in variant order; the home rule pattern is then built from the
literal text `undefined`, so only subjects beginning with
`undefined/Applications` can match it. -/
theorem home_unset_total (preferred? : Option String) (vs : List VariantSpec)
    (v : VariantSpec) (s : List Char)
    (hmatch : rtest (homeRule none v).regex s = true) :
    createPriorities none preferred? vs =
      (if strTruthy preferred? then [preferredRule (preferred?.getD "")] else []) ++
        (vs.flatMap fun p => [sysRule p, homeRule none p, volRule p]) ∧
    (homeRule none v).regex.items =
      "undefined/Applications/".toList.map RItem.lit ++ ([RItem.dotStar] ++ v.name) ∧
    "undefined/Applications".toList.isPrefixOf s = true := by
  have hcat : ("undefined".toList ++ "/Applications/".toList) =
      "undefined/Applications/".toList := by decide
  have hre : (homeRule none v).regex =
      ⟨true, "undefined/Applications/".toList.map RItem.lit ++
        ([RItem.dotStar] ++ v.name)⟩ := by
    simp only [homeRule, homeChars, litStr, ← List.append_assoc, ← List.map_append, hcat]
  refine ⟨createPriorities_eq none preferred? vs, congrArg RPattern.items hre, ?_⟩
  rw [hre, rtest_anchored_lit_dotStar] at hmatch
  simp only [Bool.and_eq_true] at hmatch
  have h1 := hmatch.1
  have h2 : "undefined/Applications".toList <+: "undefined/Applications/".toList := by
    decide
  exact List.isPrefixOf_iff_prefix.mpr
    (h2.trans (List.isPrefixOf_iff_prefix.mp h1))

/-- Witness for C10 at a concrete matching subject. -/
theorem home_unset_total_witness :
    "undefined/Applications".toList.isPrefixOf
      "undefined/Applications/X".toList = true :=
  (home_unset_total none [⟨[RItem.lit 'X'], 0, Quality.Stable⟩]
    ⟨[RItem.lit 'X'], 0, Quality.Stable⟩ "undefined/Applications/X".toList
    (by decide)).2.2

/-! ### Marker-stripping lemmas -/

/-- The marker text ` (0x<digits>)` for a given digit list. -/
def markerOf (h : List Char) : List Char :=
  ' ' :: '(' :: '0' :: 'x' :: (h ++ [')'])

theorem dropWhile_hex_append (h : List Char) (hhex : h.all isHexLower = true) :
    (h ++ [')']).dropWhile isHexLower = [')'] := by
  induction h with
  | nil => decide
  | cons c h ih =>
    simp only [List.all_cons, Bool.and_eq_true] at hhex
    simp [List.dropWhile_cons, hhex.1, ih hhex.2]

theorem takeWhile_hex_append (h : List Char) (hhex : h.all isHexLower = true) :
    (h ++ [')']).takeWhile isHexLower = h := by
  induction h with
  | nil => decide
  | cons c h ih =>
    simp only [List.all_cons, Bool.and_eq_true] at hhex
    simp [List.takeWhile_cons, hhex.1, ih hhex.2]

theorem dropMarkerAt_markerOf (h : List Char) (hne : h ≠ [])
    (hhex : h.all isHexLower = true) : dropMarkerAt (markerOf h) = some [] := by
  show dropMarkerAt (' ' :: '(' :: '0' :: 'x' :: (h ++ [')'])) = some []
  rw [dropMarkerAt, dropWhile_hex_append h hhex]
  simp [takeWhile_hex_append h hhex, hne]

theorem dropMarkerAt_some_shape (l t : List Char) (h : dropMarkerAt l = some t) :
    [' ', '(', '0', 'x'] <+: l := by
  match l with
  | [] => exact absurd h (by simp [dropMarkerAt])
  | [c1] => exact absurd h (by simp [dropMarkerAt])
  | [c1, c2] => exact absurd h (by simp [dropMarkerAt])
  | [c1, c2, c3] => exact absurd h (by simp [dropMarkerAt])
  | c1 :: c2 :: c3 :: c4 :: rest =>
    rw [dropMarkerAt] at h
    by_cases hc : c1 = ' ' ∧ c2 = '(' ∧ c3 = '0' ∧ c4 = 'x'
    · obtain ⟨h1, h2, h3, h4⟩ := hc
      subst h1; subst h2; subst h3; subst h4
      exact ⟨rest, rfl⟩
    · rw [if_neg hc] at h
      exact absurd h (by simp)

/-- A marker match cannot start inside the line and spill into the marker
appended at the end: if the marker pattern matches at the start of
`s ++ markerOf h` with `s` nonempty, then the text ` (0x` already sits at
the start of `s`. -/
theorem marker_prefix_of_append (s h t : List Char) (hs : s ≠ [])
    (hd : dropMarkerAt (s ++ markerOf h) = some t) : [' ', '(', '0', 'x'] <+: s := by
  obtain ⟨r, hr⟩ := dropMarkerAt_some_shape _ _ hd
  match s, hs with
  | [a], _ =>
    simp only [markerOf, List.cons_append, List.nil_append] at hr
    injection hr with h1 hr
    injection hr with h2 hr
    exact absurd h2 (by decide)
  | [a, b], _ =>
    simp only [markerOf, List.cons_append, List.nil_append] at hr
    injection hr with h1 hr
    injection hr with h2 hr
    injection hr with h3 hr
    exact absurd h3 (by decide)
  | [a, b, c], _ =>
    simp only [markerOf, List.cons_append, List.nil_append] at hr
    injection hr with h1 hr
    injection hr with h2 hr
    injection hr with h3 hr
    injection hr with h4 hr
    exact absurd h4 (by decide)
  | a :: b :: c :: d :: s', _ =>
    simp only [List.cons_append] at hr
    injection hr with h1 hr
    injection hr with h2 hr
    injection hr with h3 hr
    injection hr with h4 hr
    subst h1; subst h2; subst h3; subst h4
    exact ⟨s', rfl⟩

theorem stripFirstMarker_eq_self (l : List Char)
    (hnosub : ¬ ([' ', '(', '0', 'x'] <:+: l)) : stripFirstMarker l = l := by
  induction l with
  | nil => rfl
  | cons c cs ih =>
    have hnone : dropMarkerAt (c :: cs) = none := by
      cases hd : dropMarkerAt (c :: cs) with
      | none => rfl
      | some t => exact absurd (dropMarkerAt_some_shape _ _ hd).isInfix hnosub
    rw [stripFirstMarker, hnone]
    show c :: stripFirstMarker cs = c :: cs
    rw [ih fun hinf => hnosub (List.infix_cons hinf)]

theorem stripFirstMarker_append_markerOf (s h : List Char) (hne : h ≠ [])
    (hhex : h.all isHexLower = true)
    (hnosub : ¬ ([' ', '(', '0', 'x'] <:+: s)) :
    stripFirstMarker (s ++ markerOf h) = s := by
  induction s with
  | nil =>
    rw [List.nil_append]
    have hd := dropMarkerAt_markerOf h hne hhex
    rw [markerOf] at hd ⊢
    rw [stripFirstMarker, hd]
  | cons c s' ih =>
    have hnone : dropMarkerAt ((c :: s') ++ markerOf h) = none := by
      cases hd : dropMarkerAt ((c :: s') ++ markerOf h) with
      | none => rfl
      | some t =>
        exact absurd (marker_prefix_of_append (c :: s') h t (by simp) hd).isInfix hnosub
    rw [List.cons_append, stripFirstMarker]
    rw [List.cons_append] at hnone
    rw [hnone]
    show c :: stripFirstMarker (s' ++ markerOf h) = c :: s'
    rw [ih fun hinf => hnosub (List.infix_cons hinf)]

theorem dropWhile_eq_self_of_trim (s : List Char) (htrim : jsTrim s = s) :
    s.dropWhile isWS = s := by
  have hsuf : s.dropWhile isWS <:+ s := List.dropWhile_suffix isWS
  have h1 : (jsTrim s).length ≤ (s.dropWhile isWS).length := by
    rw [jsTrim, List.length_reverse]
    calc ((s.dropWhile isWS).reverse.dropWhile isWS).length
        ≤ (s.dropWhile isWS).reverse.length := (List.dropWhile_suffix isWS).length_le
      _ = (s.dropWhile isWS).length := List.length_reverse _
  have h2 : (s.dropWhile isWS).length ≤ s.length := hsuf.length_le
  rw [htrim] at h1
  exact hsuf.eq_of_length (by omega)

theorem head_not_ws (c : Char) (s : List Char)
    (h : (c :: s).dropWhile isWS = c :: s) : isWS c = false := by
  cases hcv : isWS c with
  | false => rfl
  | true =>
    rw [List.dropWhile_cons, hcv, if_pos rfl] at h
    have hlen := congrArg List.length h
    have hle : (s.dropWhile isWS).length ≤ s.length :=
      (List.dropWhile_suffix isWS).length_le
    simp only [List.length_cons] at hlen
    omega

theorem jsTrim_append_markerOf (s h : List Char) (hs : s ≠ [])
    (htrim : jsTrim s = s) :
    jsTrim (s ++ markerOf h) = s ++ markerOf h := by
  have hdrop : (s ++ markerOf h).dropWhile isWS = s ++ markerOf h := by
    match s, hs with
    | c :: s', _ =>
      have hc : isWS c = false :=
        head_not_ws c s' (dropWhile_eq_self_of_trim (c :: s') htrim)
      rw [List.cons_append, List.dropWhile_cons, hc]
      simp
  obtain ⟨r, hr⟩ : ∃ r, (s ++ markerOf h).reverse = ')' :: r := by
    refine ⟨h.reverse ++ ('x' :: '0' :: '(' :: ' ' :: s.reverse), ?_⟩
    simp [markerOf, List.reverse_append]
  have hpar : isWS ')' = false := by decide
  rw [jsTrim, hdrop, hr, List.dropWhile_cons, hpar]
  simp only [Bool.false_eq_true, if_false]
  rw [← hr, List.reverse_reverse]

/-- C8 counterexample: the marker with uppercase hexadecimal digits
` (0x1A2B3C)` is of the claimed form (space, open paren, `0x`, hexadecimal
digits, close paren) yet is not stripped, so the suffixed line yields a
different candidate than the same line without the suffix. -/
theorem marker_strip_counterexample :
    processLine "/Applications/Firefox.app (0x1A2B3C)" =
      "/Applications/Firefox.app (0x1A2B3C)" ∧
    processLine "/Applications/Firefox.app" = "/Applications/Firefox.app" ∧
    findLaunchRegisteredApps (Except.ok "/Applications/Firefox.app (0x1A2B3C)") none []
      ["/s"] (fun _ => true) =
      Except.ok ["/Applications/Firefox.app (0x1A2B3C)/s"] ∧
    findLaunchRegisteredApps (Except.ok "/Applications/Firefox.app") none [] ["/s"]
      (fun _ => true) = Except.ok ["/Applications/Firefox.app/s"] ∧
    ("/Applications/Firefox.app (0x1A2B3C)" : String) ≠ "/Applications/Firefox.app" := by
  decide

/-- C8 amended: a registry line consisting of an already-trimmed path that
does not itself contain the character sequence ` (0x`, followed by a
disambiguation suffix ` (0x<digits>)` with one or more LOWERCASE
hexadecimal digits, is treated identically to the same line without the
suffix: the per-line normalisation strips the suffix, yielding the bare
path in both cases (uppercase hexadecimal digits are not stripped, see the
counterexample). -/
theorem marker_stripped_when_lowercase (s h : List Char) (hs : s ≠ [])
    (htrim : jsTrim s = s) (hnosub : ¬ ([' ', '(', '0', 'x'] <:+: s))
    (hne : h ≠ []) (hhex : h.all isHexLower = true) :
    processLineL (s ++ markerOf h) = s ∧ processLineL s = s := by
  constructor
  · rw [processLineL, jsTrim_append_markerOf s h hs htrim,
      stripFirstMarker_append_markerOf s h hne hhex hnosub]
  · rw [processLineL, htrim, stripFirstMarker_eq_self s hnosub]

/-- Witness for the amended C8 at the concrete line of the specification
example. -/
theorem marker_stripped_when_lowercase_witness :
    processLineL ("/Applications/Firefox.app".toList ++ markerOf "1a2b3c".toList) =
      "/Applications/Firefox.app".toList ∧
    processLineL "/Applications/Firefox.app".toList =
      "/Applications/Firefox.app".toList :=
  marker_stripped_when_lowercase "/Applications/Firefox.app".toList "1a2b3c".toList
    (by decide) (by decide) (by decide) (by decide) (by decide)

end LandBrowsers
